import Mathlib

/-!
Verification of the BikaCalculate calculator bot (src/index.js and its two
variants).  The core under scrutiny is the `safeEval` sanitisation/evaluation
pipeline and the per-chat calculator session driven by keypad callback events.

Strings are modelled as their lists of characters (Lean `String` wraps
`List Char`, matching JS strings over the BMP).  JavaScript numbers are
modelled as exact rationals extended with infinities and NaN (`JsNum`);
this is the standard exact idealisation of IEEE doubles: every concrete
value appearing in the claims is computed exactly by both.
-/

namespace Bika

/-- JS whitespace (the regex class from the allowlist, which also coincides
with what `String.prototype.trim` strips): space, tab, LF, VT, FF, CR,
NBSP, Ogham space, the U+2000 range, line/paragraph separators, NNBSP,
MMSP, ideographic space, BOM. -/
def isJsWhitespace (c : Char) : Bool :=
  c = ' ' || c = '\t' || c = '\n' || c.val = 0x0B || c.val = 0x0C ||
  c = '\r' || c.val = 0xA0 || c.val = 0x1680 ||
  (0x2000 ≤ c.val && c.val ≤ 0x200A) || c.val = 0x2028 || c.val = 0x2029 ||
  c.val = 0x202F || c.val = 0x205F || c.val = 0x3000 || c.val = 0xFEFF

/-- `String.prototype.trim`: drop whitespace from both ends. -/
def jsTrim (cs : List Char) : List Char :=
  ((cs.dropWhile isJsWhitespace).reverse.dropWhile isJsWhitespace).reverse

/-- The per-character part of the normalisation chain in `safeEval`
(src/index.js lines 63-68): `×`→`*`, `÷`→`/`, em dash and minus sign →
`-`, and commas removed. -/
def glyphMap (c : Char) : Option Char :=
  if c = ',' then none
  else if c = '×' then some '*'
  else if c = '÷' then some '/'
  else if c = '—' then some '-'
  else if c = '−' then some '-'
  else some c

/-- Normalisation performed by `safeEval` before any check: trim, then the
glyph substitutions / comma stripping. -/
def normalize (cs : List Char) : List Char :=
  (jsTrim cs).filterMap glyphMap

/-- ASCII lower-casing, used to model the `/i` flag on the blocklist regex. -/
def lowerChar (c : Char) : Char :=
  if 'A' ≤ c && c ≤ 'Z' then Char.ofNat (c.toNat + 32) else c

def lowerStr (cs : List Char) : List Char := cs.map lowerChar

/-- `needle` occurs as a contiguous substring of `hay`. -/
def isSubstrOf (needle hay : List Char) : Bool :=
  match hay with
  | [] => needle.isEmpty
  | _ :: t => needle.isPrefixOf hay || isSubstrOf needle t

/-- The fixed denylist from the `blocked` regex in `safeEval`
(src/index.js line 71). -/
def blockedWords : List (List Char) :=
  ["import".data, "createUnit".data, "evaluate".data, "parse".data,
   "simplify".data, "derivative".data, "compile".data, "help".data,
   "unit".data, "format".data, "typed".data, "reviver".data, "json".data,
   "chain".data, "matrix".data, "ones".data, "zeros".data, "range".data,
   "index".data, "subset".data, "concat".data, "resize".data]

/-- `blocked.test(s)`: case-insensitive containment of any denylisted
identifier. -/
def containsBlocked (cs : List Char) : Bool :=
  blockedWords.any fun w => isSubstrOf (lowerStr w) (lowerStr cs)

/-- The character allowlist regex from `safeEval` (src/index.js line 74):
digits, `+ - * / ( ) . ^ %`, whitespace and the letters `p i e P I E`. -/
def allowedChar (c : Char) : Bool :=
  c.isDigit ||
  c = '+' || c = '-' || c = '*' || c = '/' || c = '(' || c = ')' ||
  c = '.' || c = '^' || c = '%' ||
  c = 'p' || c = 'i' || c = 'e' || c = 'P' || c = 'I' || c = 'E' ||
  isJsWhitespace c

/-- A JavaScript number, idealised: an exact rational, an infinity or NaN. -/
inductive JsNum where
  | fin (q : ℚ)
  | posInf
  | negInf
  | nan
  deriving DecidableEq, Repr

namespace JsNum

def isFinite : JsNum → Bool
  | fin _ => true
  | _ => false

def neg : JsNum → JsNum
  | fin q => fin (-q)
  | posInf => negInf
  | negInf => posInf
  | nan => nan

def add : JsNum → JsNum → JsNum
  | fin a, fin b => fin (a + b)
  | fin _, posInf => posInf
  | fin _, negInf => negInf
  | posInf, fin _ => posInf
  | negInf, fin _ => negInf
  | posInf, posInf => posInf
  | negInf, negInf => negInf
  | posInf, negInf => nan
  | negInf, posInf => nan
  | _, _ => nan

def sub (a b : JsNum) : JsNum := add a (neg b)

def mul : JsNum → JsNum → JsNum
  | fin a, fin b => fin (a * b)
  | fin a, posInf => if a = 0 then nan else if 0 < a then posInf else negInf
  | fin a, negInf => if a = 0 then nan else if 0 < a then negInf else posInf
  | posInf, fin b => if b = 0 then nan else if 0 < b then posInf else negInf
  | negInf, fin b => if b = 0 then nan else if 0 < b then negInf else posInf
  | posInf, posInf => posInf
  | negInf, negInf => posInf
  | posInf, negInf => negInf
  | negInf, posInf => negInf
  | _, _ => nan

def div : JsNum → JsNum → JsNum
  | fin a, fin b =>
      if b = 0 then (if a = 0 then nan else if 0 < a then posInf else negInf)
      else fin (a / b)
  | fin _, posInf => fin 0
  | fin _, negInf => fin 0
  | posInf, fin b => if 0 ≤ b then posInf else negInf
  | negInf, fin b => if 0 ≤ b then negInf else posInf
  | _, _ => nan

/-- mathjs `mod` on numbers: `x - y * floor(x / y)`, with `mod(x, 0) = x`. -/
def mod : JsNum → JsNum → JsNum
  | fin a, fin b => if b = 0 then fin a else fin (a - b * ⌊a / b⌋)
  | _, _ => nan

/-- Exponentiation.  Exact for integer exponents (the case exercised by the
program's claims); a fractional exponent generally denotes an irrational
real, which the exact-rational idealisation maps to `nan`
(negative base with fractional exponent is `NaN` in JS as well). -/
def pow (a b : JsNum) : JsNum :=
  if b = fin 0 then fin 1 else
  match a, b with
  | fin x, fin e =>
      if e.den = 1 then
        (if 0 ≤ e.num then fin (x ^ e.num.toNat)
         else if x = 0 then posInf else fin ((1 / x) ^ (-e.num).toNat))
      else nan
  | fin x, posInf =>
      if x = 1 ∨ x = -1 then nan
      else if 1 < |x| then posInf else fin 0
  | fin x, negInf =>
      if x = 1 ∨ x = -1 then nan
      else if 1 < |x| then fin 0 else posInf
  | posInf, fin e => if 0 < e.num then posInf else fin 0
  | negInf, fin e =>
      if 0 < e.num then (if e.den = 1 ∧ e.num % 2 ≠ 0 then negInf else posInf)
      else fin 0
  | posInf, posInf => posInf
  | posInf, negInf => fin 0
  | negInf, posInf => posInf
  | negInf, negInf => fin 0
  | _, _ => nan

end JsNum

/-! ### The arithmetic engine

`safeEval` delegates to `math.evaluate` from mathjs (configured with
`number: "number"`), a third-party dependency whose source is not part of
this repository.  Modelled from the spec: §4.1 step 4 — "a standard
arithmetic-expression evaluator supporting `+ - * / ^ %`, parentheses,
unary minus, and the constants π and e, with conventional operator
precedence"; per §9 the engine's value for an empty expression is the
JS `undefined` (which mathjs returns for an empty program). -/

inductive Tok where
  | num (q : ℚ)
  | ident (s : List Char)
  | plus | minus | star | slash | caret | percent | lparen | rparen
  deriving DecidableEq, Repr

def isNumChar (c : Char) : Bool := c.isDigit || c = '.'

/-- Longest prefix satisfying `p`, together with the rest. -/
def spanPred (p : Char → Bool) : List Char → List Char × List Char
  | [] => ([], [])
  | c :: t =>
      if p c then
        let r := spanPred p t
        (c :: r.1, r.2)
      else ([], c :: t)

def digitVal (c : Char) : Nat := c.toNat - 48

def digitsToNat (l : List Char) : Nat :=
  l.foldl (fun n c => 10 * n + digitVal c) 0

/-- Lex one numeral run (digits and dots) into its rational value:
`int`, `int.frac`, `.frac` and `int.` forms; anything else (a lone dot,
two dots) is a lexical error. -/
def numToken (run : List Char) : Option ℚ :=
  let ip := run.takeWhile (fun c => c ≠ '.')
  match run.dropWhile (fun c => c ≠ '.') with
  | [] => some (digitsToNat ip)
  | _ :: frac =>
      if frac.all (fun c => c ≠ '.') && !(ip.isEmpty && frac.isEmpty) then
        some ((digitsToNat ip : ℚ) + (digitsToNat frac : ℚ) / 10 ^ frac.length)
      else none

def tokenizeF : Nat → List Char → Option (List Tok)
  | 0, _ => none
  | _ + 1, [] => some []
  | fuel + 1, c :: rest =>
    if isJsWhitespace c then tokenizeF fuel rest
    else if isNumChar c then
      let sp := spanPred isNumChar rest
      match numToken (c :: sp.1), tokenizeF fuel sp.2 with
      | some q, some ts => some (Tok.num q :: ts)
      | _, _ => none
    else if c.isAlpha then
      let sp := spanPred (fun d => d.isAlpha) rest
      (tokenizeF fuel sp.2).map fun ts => Tok.ident (c :: sp.1) :: ts
    else if c = '+' then (tokenizeF fuel rest).map fun ts => Tok.plus :: ts
    else if c = '-' then (tokenizeF fuel rest).map fun ts => Tok.minus :: ts
    else if c = '*' then (tokenizeF fuel rest).map fun ts => Tok.star :: ts
    else if c = '/' then (tokenizeF fuel rest).map fun ts => Tok.slash :: ts
    else if c = '^' then (tokenizeF fuel rest).map fun ts => Tok.caret :: ts
    else if c = '%' then (tokenizeF fuel rest).map fun ts => Tok.percent :: ts
    else if c = '(' then (tokenizeF fuel rest).map fun ts => Tok.lparen :: ts
    else if c = ')' then (tokenizeF fuel rest).map fun ts => Tok.rparen :: ts
    else none

/-- The lexer.  Each step consumes at least one character, so
`length + 1` fuel always suffices. -/
def tokenize (cs : List Char) : Option (List Tok) :=
  tokenizeF (cs.length + 1) cs

/-- The engine's value for the constant `pi`: the IEEE double for π, whose
shortest decimal representation (cited by the spec) is
3.141592653589793. -/
def piConst : ℚ := 3141592653589793 / 10 ^ 15

/-- The engine's value for the constant `e`: the IEEE double for e,
shortest decimal representation 2.718281828459045. -/
def eConst : ℚ := 2718281828459045 / 10 ^ 15

mutual

def parseAddL : Nat → List Tok → Option (JsNum × List Tok)
  | 0, _ => none
  | fuel + 1, ts =>
      match parseMulL fuel ts with
      | some (v, rest) => parseAddLoop fuel v rest
      | none => none

def parseAddLoop : Nat → JsNum → List Tok → Option (JsNum × List Tok)
  | 0, _, _ => none
  | fuel + 1, acc, ts =>
      match ts with
      | Tok.plus :: rest =>
          (match parseMulL fuel rest with
           | some (v, rest2) => parseAddLoop fuel (acc.add v) rest2
           | none => none)
      | Tok.minus :: rest =>
          (match parseMulL fuel rest with
           | some (v, rest2) => parseAddLoop fuel (acc.sub v) rest2
           | none => none)
      | _ => some (acc, ts)

def parseMulL : Nat → List Tok → Option (JsNum × List Tok)
  | 0, _ => none
  | fuel + 1, ts =>
      match parseUnaryL fuel ts with
      | some (v, rest) => parseMulLoop fuel v rest
      | none => none

def parseMulLoop : Nat → JsNum → List Tok → Option (JsNum × List Tok)
  | 0, _, _ => none
  | fuel + 1, acc, ts =>
      match ts with
      | Tok.star :: rest =>
          (match parseUnaryL fuel rest with
           | some (v, rest2) => parseMulLoop fuel (acc.mul v) rest2
           | none => none)
      | Tok.slash :: rest =>
          (match parseUnaryL fuel rest with
           | some (v, rest2) => parseMulLoop fuel (acc.div v) rest2
           | none => none)
      | Tok.percent :: rest =>
          (match parseUnaryL fuel rest with
           | some (v, rest2) => parseMulLoop fuel (acc.mod v) rest2
           | none => none)
      | _ => some (acc, ts)

def parseUnaryL : Nat → List Tok → Option (JsNum × List Tok)
  | 0, _ => none
  | fuel + 1, Tok.minus :: rest =>
      (parseUnaryL fuel rest).map fun vr => (vr.1.neg, vr.2)
  | fuel + 1, Tok.plus :: rest => parseUnaryL fuel rest
  | fuel + 1, ts => parsePowL fuel ts

def parsePowL : Nat → List Tok → Option (JsNum × List Tok)
  | 0, _ => none
  | fuel + 1, ts =>
      match parsePrimaryL fuel ts with
      | some (v, Tok.caret :: rest) =>
          (parseUnaryL fuel rest).map fun wr => (v.pow wr.1, wr.2)
      | some (v, rest) => some (v, rest)
      | none => none

def parsePrimaryL : Nat → List Tok → Option (JsNum × List Tok)
  | 0, _ => none
  | fuel + 1, ts =>
      match ts with
      | Tok.num q :: rest => some (JsNum.fin q, rest)
      | Tok.ident s :: rest =>
          if s = "pi".data then some (JsNum.fin piConst, rest)
          else if s = "e".data then some (JsNum.fin eConst, rest)
          else none
      | Tok.lparen :: rest =>
          (match parseAddL fuel rest with
           | some (v, Tok.rparen :: rest2) => some (v, rest2)
           | _ => none)
      | _ => none

end

/-- A value returned by the engine: a number, or JS `undefined` for an
empty program. -/
inductive JsVal where
  | num (x : JsNum)
  | undef
  deriving DecidableEq, Repr

/-- `math.evaluate` on an already-normalized string: lex, parse, evaluate;
`none` models a thrown engine error (lexical or syntax failure). -/
def engineEval (cs : List Char) : Option JsVal :=
  match tokenize cs with
  | none => none
  | some [] => some .undef
  | some ts =>
      match parseAddL (6 * ts.length + 8) ts with
      | some (v, []) => some (.num v)
      | _ => none

/-! ### Rounding and rendering (src/index.js lines 79-83) -/

def digitChar (n : Nat) : Char := Char.ofNat (48 + n)

def natToDigitsRevF : Nat → Nat → List Char
  | 0, _ => []
  | fuel + 1, n =>
      if n < 10 then [digitChar n]
      else digitChar (n % 10) :: natToDigitsRevF fuel (n / 10)

/-- Decimal digits of `n`, most significant first.  `n + 1` fuel always
suffices since `n / 10 < n` for `n ≥ 10`. -/
def natToDigits (n : Nat) : List Char := (natToDigitsRevF (n + 1) n).reverse

def dropTrailingZeros (l : List Char) : List Char :=
  (l.reverse.dropWhile (fun c => c = '0')).reverse

def padLeftZeros (m : Nat) (l : List Char) : List Char :=
  List.replicate (m - l.length) '0' ++ l

/-- `Number.EPSILON` = 2⁻⁵². -/
def epsQ : ℚ := 1 / 2 ^ 52

/-- `Math.round`: round half toward +∞. -/
def jsRound (q : ℚ) : ℤ := ⌊q + 1 / 2⌋

/-- `Math.round((result + Number.EPSILON) * 1e12)`: the rounded result,
scaled by 10¹². -/
def round12 (q : ℚ) : ℤ := jsRound ((q + epsQ) * 10 ^ 12)

/-- `String(rounded)` for `rounded = k / 1e12`: decimal rendering with no
trailing zeros in the fractional part (the JS shortest round-trip
representation of such a value, idealised to plain positional notation). -/
def renderRounded (k : ℤ) : List Char :=
  let n := k.natAbs
  let ip := n / 10 ^ 12
  let fp := n % 10 ^ 12
  (if k < 0 then ['-'] else []) ++ natToDigits ip ++
    (if fp = 0 then []
     else '.' :: dropTrailingZeros (padLeftZeros 12 (natToDigits fp)))

/-! ### safeEval (src/index.js lines 61-85) -/

/-- The rejection kinds `safeEval` can raise; `engineFailure` stands for an
error thrown by the engine itself (malformed syntax). -/
inductive CalcError where
  | unsupportedConstruct
  | invalidCharacters
  | nonFinite
  | engineFailure
  deriving DecidableEq, Repr

/-- `e.message` of the thrown error.  The first three texts are literal in
the source; an engine failure carries an engine-specific message. -/
def CalcError.message : CalcError → String
  | .unsupportedConstruct => "Unsupported expression."
  | .invalidCharacters => "Invalid characters."
  | .nonFinite => "Result is not finite."
  | .engineFailure => "Evaluation error."

instance instDecEqExcept {ε α : Type} [DecidableEq ε] [DecidableEq α] :
    DecidableEq (Except ε α)
  | Except.ok a, Except.ok b =>
      if h : a = b then isTrue (congrArg Except.ok h)
      else isFalse fun hh => h (Except.ok.inj hh)
  | Except.error a, Except.error b =>
      if h : a = b then isTrue (congrArg Except.error h)
      else isFalse fun hh => h (Except.error.inj hh)
  | Except.ok _, Except.error _ => isFalse fun hh => Except.noConfusion hh
  | Except.error _, Except.ok _ => isFalse fun hh => Except.noConfusion hh

def safeEvalL (cs : List Char) : Except CalcError (List Char) :=
  let s := normalize cs
  if containsBlocked s then .error .unsupportedConstruct
  else if !s.all allowedChar then .error .invalidCharacters
  else
    match engineEval s with
    | none => .error .engineFailure
    | some (.num (.fin q)) => .ok (renderRounded (round12 q))
    | some (.num _) => .error .nonFinite
    | some .undef => .ok "undefined".data

/-- `safeEval` over Lean strings. -/
def safeEval (s : String) : Except CalcError String :=
  match safeEvalL s.data with
  | .ok l => .ok (String.mk l)
  | .error e => .error e

/-! ### Calculator session (src/index.js lines 291-300 and 437-480) -/

structure Session where
  expr : String
  result : String
  msgId : Option Nat
  deriving DecidableEq, Repr

/-- `{ expr: "", result: "", msgId: null }`. -/
def freshSession : Session := ⟨"", "", none⟩

/-- One keypad callback event (`data = "k:" ++ key`), the state mutation of
the `callback_query` handler. -/
def applyKey (s : Session) (key : String) : Session :=
  if key = "C" then { s with expr := "", result := "" }
  else if key = "BS" then { s with expr := String.mk s.expr.data.dropLast }
  else if key = "=" then
    { s with result :=
        if s.expr = "" then ""
        else
          match safeEval s.expr with
          | .ok r => r
          | .error e => "Error: " ++ e.message }
  else { s with expr := s.expr ++ key }

def applyKeys (s : Session) (ks : List String) : Session :=
  ks.foldl applyKey s

/-- The `/calculator` command handler's effect on the session map:
`state.set(chatId, { expr: "", result: "", msgId: null })`. -/
def openCalculator (st : Int → Option Session) (chatId : Int) :
    Int → Option Session :=
  fun c => if c = chatId then some freshSession else st c

/-! ### Auxiliary definitions used by the statements and proofs -/

/-- Little-endian decimal value of a digit list. -/
def valLE : List Char → Nat
  | [] => 0
  | c :: t => digitVal c + 10 * valLE t

/-- The ten decimal digit characters. -/
def digitChars : List Char :=
  ['0', '1', '2', '3', '4', '5', '6', '7', '8', '9']

/-- Characters that may appear in a rendered numeric result. -/
def plainChars : List Char := digitChars ++ ['.', '-']

/-- A rendered value has no trailing zero in its fractional part. -/
def noTrailingZeroFrac (l : List Char) : Prop :=
  '.' ∈ l → l.getLast? ≠ some '0'

/-- The keypad keys that append their literal text to the expression. -/
def charKeys : List String :=
  ["0", "1", "2", "3", "4", "5", "6", "7", "8", "9",
   ".", "(", ")", "+", "-", "*", "/"]

/-! ## Theorems -/

theorem dropWhile_eq_self_of_all {p : Char → Bool} {l : List Char}
    (h : ∀ c ∈ l, p c = false) : l.dropWhile p = l := by
  cases l with
  | nil => rfl
  | cons c t => simp [List.dropWhile_cons, h c (by simp)]

theorem jsTrim_eq_self {l : List Char}
    (h : ∀ c ∈ l, isJsWhitespace c = false) : jsTrim l = l := by
  unfold jsTrim
  rw [dropWhile_eq_self_of_all h, dropWhile_eq_self_of_all, List.reverse_reverse]
  intro c hc
  exact h c (by simpa using hc)

theorem filterMap_glyph_eq_self {l : List Char}
    (h : ∀ c ∈ l, glyphMap c = some c) : l.filterMap glyphMap = l := by
  induction l with
  | nil => rfl
  | cons c t ih =>
      rw [List.filterMap_cons, h c (by simp), ih fun d hd => h d (by simp [hd])]

theorem normalize_eq_self {l : List Char}
    (hw : ∀ c ∈ l, isJsWhitespace c = false)
    (hg : ∀ c ∈ l, glyphMap c = some c) : normalize l = l := by
  unfold normalize
  rw [jsTrim_eq_self hw, filterMap_glyph_eq_self hg]

theorem isSubstrOf_mem {needle hay : List Char}
    (h : isSubstrOf needle hay = true) : ∀ c ∈ needle, c ∈ hay := by
  induction hay with
  | nil =>
      intro c hc
      simp only [isSubstrOf, List.isEmpty_iff] at h
      subst h
      simp at hc
  | cons a t ih =>
      intro c hc
      simp only [isSubstrOf, Bool.or_eq_true] at h
      rcases h with h | h
      · exact (List.isPrefixOf_iff_prefix.mp h).subset hc
      · exact List.mem_cons_of_mem a (ih h c hc)

theorem containsBlocked_eq_false_of_no_alpha {cs : List Char}
    (h : ∀ c ∈ lowerStr cs, c.isAlpha = false) :
    containsBlocked cs = false := by
  rw [containsBlocked, List.any_eq_false]
  intro w hw
  have halpha : (lowerStr w).any (fun c => c.isAlpha) = true := by
    have : blockedWords.all (fun v => (lowerStr v).any fun c => c.isAlpha) = true := by
      decide
    exact List.all_eq_true.mp this w hw
  obtain ⟨c, hc, hca⟩ := List.any_eq_true.mp halpha
  intro hsub
  exact absurd hca (by rw [h c (isSubstrOf_mem hsub c hc)]; simp)

/-- C2: any input whose normalized form contains, case-insensitively, a
denylisted identifier is rejected by `safeEval` with the
`Unsupported expression.` error (`UnsupportedConstruct`). -/
theorem claim2_unsupported (s : String)
    (h : containsBlocked (normalize s.data) = true) :
    safeEval s = .error .unsupportedConstruct := by
  unfold safeEval safeEvalL
  simp [h]

theorem claim2_witness :
    containsBlocked (normalize "Evaluate(2)".data) = true ∧
    safeEval "Evaluate(2)" = .error .unsupportedConstruct :=
  ⟨by decide, claim2_unsupported "Evaluate(2)" (by decide)⟩

/-- C1 (amended): an input whose normalized form has a character outside
the allowlist is rejected as `InvalidCharacters` provided it does not
also contain a denylisted identifier (the blocklist check runs first). -/
theorem claim1_invalid_chars (s : String)
    (h1 : containsBlocked (normalize s.data) = false)
    (h2 : (normalize s.data).all allowedChar = false) :
    safeEval s = .error .invalidCharacters := by
  unfold safeEval safeEvalL
  simp [h1, h2]

/-- C1 counterexample: `"import"` normalizes to itself, contains the
characters `m o r t` outside the allowlist, yet `safeEval` returns
`UnsupportedConstruct`, not `InvalidCharacters`, because the blocklist
scan precedes the character check. -/
theorem claim1_counterexample :
    (normalize "import".data).all allowedChar = false ∧
    safeEval "import" = .error .unsupportedConstruct ∧
    safeEval "import" ≠ .error .invalidCharacters := by
  refine ⟨by decide, by decide, by decide⟩

theorem claim1_witness :
    containsBlocked (normalize "2&2".data) = false ∧
    (normalize "2&2".data).all allowedChar = false ∧
    safeEval "2&2" = .error .invalidCharacters :=
  ⟨by decide, by decide, claim1_invalid_chars "2&2" (by decide) (by decide)⟩

/-- C3: the code has no `EmptyExpression` rejection.  Empty and
whitespace-only input is trimmed to the empty string, passes both guards,
reaches the engine, and the engine's `undefined` is stringified and
returned as the success value `"undefined"` (the error type `CalcError`
of the code has no empty-expression kind at all). -/
theorem claim3_empty_not_rejected :
    safeEval "" = .ok "undefined" ∧ safeEval " " = .ok "undefined" ∧
    safeEval "\t\n " = .ok "undefined" := by
  refine ⟨by decide, by decide, by decide⟩

/-- C5: the concrete examples `2+2 = 4`, `2^10 = 1024` and
`12×(3+4) = 84`, where `×` is normalized to `*` and the normalized
expression evaluates to the same result. -/
theorem claim5_examples :
    safeEval "2+2" = .ok "4" ∧ safeEval "2^10" = .ok "1024" ∧
    safeEval "12×(3+4)" = .ok "84" ∧
    normalize "12×(3+4)".data = "12*(3+4)".data ∧
    safeEval "12*(3+4)" = .ok "84" := by
  refine ⟨?_, ?_, ?_, ?_, ?_⟩ <;> with_unfolding_all rfl

/-- C4: whenever both guards pass and the engine returns a non-finite
number (infinity or NaN), `safeEval` rejects with `NonFinite`
(`Result is not finite.`) and never returns a success value. -/
theorem claim4_nonfinite (s : String) (x : JsNum)
    (h1 : containsBlocked (normalize s.data) = false)
    (h2 : (normalize s.data).all allowedChar = true)
    (h3 : engineEval (normalize s.data) = some (.num x))
    (h4 : x.isFinite = false) :
    safeEval s = .error .nonFinite := by
  unfold safeEval safeEvalL
  simp only [h1, h2, h3]
  cases x <;> simp_all [JsNum.isFinite]

theorem claim4_witness :
    containsBlocked (normalize "10/0".data) = false ∧
    (normalize "10/0".data).all allowedChar = true ∧
    engineEval (normalize "10/0".data) = some (.num .posInf) ∧
    JsNum.posInf.isFinite = false ∧
    safeEval "10/0" = .error .nonFinite :=
  ⟨by decide, by decide, by with_unfolding_all rfl, rfl,
   claim4_nonfinite "10/0" .posInf (by decide) (by decide)
     (by with_unfolding_all rfl) rfl⟩

/-- C8: from a fresh session, the key events `1 2 + 3 =` produce
`lastResult = "15"`; `Clear` then resets both fields to empty; and
`Backspace` on any session with an empty expression leaves the whole
session state unchanged. -/
theorem claim8_session_trace :
    (applyKeys freshSession ["1", "2", "+", "3", "="]).result = "15" ∧
    (applyKey (applyKeys freshSession ["1", "2", "+", "3", "="]) "C").expr
      = "" ∧
    (applyKey (applyKeys freshSession ["1", "2", "+", "3", "="]) "C").result
      = "" ∧
    (∀ s : Session, s.expr = "" → applyKey s "BS" = s) := by
  refine ⟨by with_unfolding_all rfl, by with_unfolding_all rfl,
    by with_unfolding_all rfl, ?_⟩
  rintro ⟨e, r, m⟩ he
  simp only at he
  subst he
  rfl

theorem claim8_witness :
    (⟨"", "x", some 7⟩ : Session).expr = "" ∧
    applyKey ⟨"", "x", some 7⟩ "BS" = ⟨"", "x", some 7⟩ :=
  ⟨rfl, claim8_session_trace.2.2.2 ⟨"", "x", some 7⟩ rfl⟩

/-- C9: frame conditions of `applyKey`: a digit/operator/paren/dot key
appends its literal text and leaves the rest of the session unchanged;
`Backspace` leaves `result` unchanged; `Equals` leaves `expr` unchanged
and sets `result` to the evaluator's value, an `Error: <reason>` string,
or `""` when the expression is empty. -/
theorem claim9_frame :
    (∀ (s : Session) (key : String), key ∈ charKeys →
        applyKey s key = { s with expr := s.expr ++ key }) ∧
    (∀ s : Session, (applyKey s "BS").result = s.result) ∧
    (∀ s : Session, (applyKey s "=").expr = s.expr ∧
      (applyKey s "=").result =
        (if s.expr = "" then ""
         else
           match safeEval s.expr with
           | .ok r => r
           | .error e => "Error: " ++ e.message)) := by
  refine ⟨?_, fun s => rfl, fun s => ⟨rfl, rfl⟩⟩
  intro s key hk
  fin_cases hk <;> rfl

theorem claim9_witness :
    applyKey ⟨"12", "r", some 5⟩ "+" = ⟨"12+", "r", some 5⟩ :=
  claim9_frame.1 ⟨"12", "r", some 5⟩ "+" (by decide)

/-- C10: the open-calculator command handler unconditionally installs a
fresh session (`expr = ""`, `result = ""`, no rendered message) for the
conversation, overwriting whatever session the map previously held for
that id. -/
theorem claim10_open_overwrites (st : Int → Option Session) (chatId : Int) :
    openCalculator st chatId chatId = some freshSession ∧
    freshSession.expr = "" ∧ freshSession.result = "" := by
  refine ⟨?_, rfl, rfl⟩
  simp [openCalculator]

/-! ### Decimal digits: value and rendering lemmas -/

theorem digitsToNat_go (l : List Char) (n : Nat) :
    l.foldl (fun m c => 10 * m + digitVal c) n
      = n * 10 ^ l.length + digitsToNat l := by
  induction l generalizing n with
  | nil => simp [digitsToNat]
  | cons c t ih =>
      have hD : digitsToNat (c :: t)
          = (10 * 0 + digitVal c) * 10 ^ t.length + digitsToNat t := by
        unfold digitsToNat
        rw [List.foldl_cons]
        exact ih (10 * 0 + digitVal c)
      rw [List.foldl_cons, ih (10 * n + digitVal c), hD]
      simp [List.length_cons, pow_succ]
      ring

theorem digitsToNat_cons (c : Char) (t : List Char) :
    digitsToNat (c :: t) = digitVal c * 10 ^ t.length + digitsToNat t := by
  unfold digitsToNat
  rw [List.foldl_cons]
  simpa using digitsToNat_go t (10 * 0 + digitVal c)

theorem digitsToNat_append (a b : List Char) :
    digitsToNat (a ++ b) = digitsToNat a * 10 ^ b.length + digitsToNat b := by
  unfold digitsToNat
  rw [List.foldl_append]
  exact digitsToNat_go b _

theorem digitsToNat_replicate_zero (t : Nat) :
    digitsToNat (List.replicate t '0') = 0 := by
  induction t with
  | zero => rfl
  | succ n ih =>
      rw [List.replicate_succ, digitsToNat_cons, ih]
      simp [digitVal]

theorem digitsToNat_reverse (l : List Char) :
    digitsToNat l.reverse = valLE l := by
  induction l with
  | nil => rfl
  | cons c t ih =>
      rw [List.reverse_cons, digitsToNat_append, ih]
      simp [valLE, digitsToNat_cons, digitsToNat]
      ring

theorem digitVal_digitChar {n : Nat} (h : n < 10) :
    digitVal (digitChar n) = n := by
  interval_cases n <;> rfl

theorem digitChar_mem_digitChars {n : Nat} (h : n < 10) :
    digitChar n ∈ digitChars := by
  interval_cases n <;> decide

theorem valLE_natToDigitsRevF :
    ∀ fuel n : Nat, n < fuel → valLE (natToDigitsRevF fuel n) = n := by
  intro fuel
  induction fuel with
  | zero => intro n h; omega
  | succ f ih =>
      intro n h
      rw [natToDigitsRevF]
      split
      · rename_i h10
        simp [valLE, digitVal_digitChar h10]
      · rename_i h10
        push_neg at h10
        have hdiv : n / 10 < f :=
          lt_of_lt_of_le (Nat.div_lt_self (by omega) (by omega)) (by omega)
        simp [valLE, digitVal_digitChar (Nat.mod_lt n (by omega)), ih _ hdiv]
        omega

theorem mem_natToDigitsRevF :
    ∀ fuel n : Nat, n < fuel → ∀ c ∈ natToDigitsRevF fuel n, c ∈ digitChars := by
  intro fuel
  induction fuel with
  | zero => intro n h; omega
  | succ f ih =>
      intro n h c hc
      rw [natToDigitsRevF] at hc
      split at hc
      · rename_i h10
        simp at hc
        subst hc
        exact digitChar_mem_digitChars h10
      · rename_i h10
        push_neg at h10
        have hdiv : n / 10 < f :=
          lt_of_lt_of_le (Nat.div_lt_self (by omega) (by omega)) (by omega)
        rcases List.mem_cons.mp hc with hc | hc
        · subst hc
          exact digitChar_mem_digitChars (Nat.mod_lt n (by omega))
        · exact ih _ hdiv c hc

theorem length_natToDigitsRevF_le :
    ∀ fuel n m : Nat, n < fuel → n < 10 ^ m → 1 ≤ m →
      (natToDigitsRevF fuel n).length ≤ m := by
  intro fuel
  induction fuel with
  | zero => intro n m h; omega
  | succ f ih =>
      intro n m h hnm hm
      rw [natToDigitsRevF]
      split
      · simpa using hm
      · rename_i h10
        push_neg at h10
        have hm2 : 2 ≤ m := by
          by_contra hcon
          push_neg at hcon
          interval_cases m
          · simp at hnm; omega
        have hdiv : n / 10 < f :=
          lt_of_lt_of_le (Nat.div_lt_self (by omega) (by omega)) (by omega)
        have hbound : n / 10 < 10 ^ (m - 1) := by
          rw [Nat.div_lt_iff_lt_mul (by omega)]
          calc n < 10 ^ m := hnm
          _ = 10 ^ (m - 1) * 10 := by
            rw [← pow_succ]
            congr 1
            omega
        have := ih (n / 10) (m - 1) hdiv hbound (by omega)
        simp only [List.length_cons]
        omega

theorem digitsToNat_natToDigits (n : Nat) :
    digitsToNat (natToDigits n) = n := by
  unfold natToDigits
  rw [digitsToNat_reverse]
  exact valLE_natToDigitsRevF (n + 1) n (by omega)

theorem mem_natToDigits {n : Nat} : ∀ c ∈ natToDigits n, c ∈ digitChars := by
  intro c hc
  exact mem_natToDigitsRevF (n + 1) n (by omega) c (by simpa [natToDigits] using hc)

theorem natToDigits_ne_nil (n : Nat) : natToDigits n ≠ [] := by
  unfold natToDigits
  rw [natToDigitsRevF]
  split <;> simp

theorem length_natToDigits_le {n m : Nat} (h : n < 10 ^ m) (hm : 1 ≤ m) :
    (natToDigits n).length ≤ m := by
  unfold natToDigits
  rw [List.length_reverse]
  exact length_natToDigitsRevF_le (n + 1) n m (by omega) h hm

/-! ### Trailing-zero stripping and left padding -/

theorem takeWhile_zero_eq_replicate (l : List Char) :
    l.takeWhile (fun c => c = '0')
      = List.replicate (l.takeWhile (fun c => c = '0')).length '0' := by
  apply List.eq_replicate_of_mem
  intro b hb
  have := List.mem_takeWhile_imp hb
  exact of_decide_eq_true this

theorem dropTrailingZeros_decomp (l : List Char) :
    l = dropTrailingZeros l
        ++ List.replicate (l.reverse.takeWhile (fun c => c = '0')).length '0' := by
  conv_lhs =>
    rw [← List.reverse_reverse l,
      ← List.takeWhile_append_dropWhile (fun c => c = '0') l.reverse]
  rw [List.reverse_append]
  unfold dropTrailingZeros
  congr 1
  rw [takeWhile_zero_eq_replicate l.reverse, List.reverse_replicate]
  simp

theorem digitsToNat_eq_dropTrailingZeros (l : List Char) :
    digitsToNat l = digitsToNat (dropTrailingZeros l)
      * 10 ^ (l.reverse.takeWhile (fun c => c = '0')).length := by
  conv_lhs => rw [dropTrailingZeros_decomp l]
  rw [digitsToNat_append, digitsToNat_replicate_zero, List.length_replicate]
  ring

theorem length_eq_dropTrailingZeros (l : List Char) :
    l.length = (dropTrailingZeros l).length
      + (l.reverse.takeWhile (fun c => c = '0')).length := by
  conv_lhs => rw [dropTrailingZeros_decomp l]
  simp

theorem head?_dropWhile_zero :
    ∀ (l : List Char) (c : Char),
      (l.dropWhile (fun c => c = '0')).head? = some c → c ≠ '0' := by
  intro l
  induction l with
  | nil => intro c h; simp at h
  | cons a t ih =>
      intro c h
      rw [List.dropWhile_cons] at h
      split at h
      · exact ih c h
      · rename_i ha
        simp at h
        subst h
        simpa using ha

theorem getLast?_dropTrailingZeros (l : List Char) :
    (dropTrailingZeros l).getLast? ≠ some '0' := by
  unfold dropTrailingZeros
  rw [List.getLast?_reverse]
  intro h
  exact head?_dropWhile_zero l.reverse '0' h rfl

theorem mem_dropTrailingZeros {l : List Char} {c : Char}
    (h : c ∈ dropTrailingZeros l) : c ∈ l := by
  unfold dropTrailingZeros at h
  rw [List.mem_reverse] at h
  have := (List.dropWhile_sublist (fun c => c = '0')).subset h
  simpa using this

theorem dropTrailingZeros_ne_nil {l : List Char}
    (h : digitsToNat l ≠ 0) : dropTrailingZeros l ≠ [] := by
  intro hnil
  apply h
  rw [digitsToNat_eq_dropTrailingZeros l, hnil]
  simp [digitsToNat]

theorem digitsToNat_padLeftZeros (m : Nat) (l : List Char) :
    digitsToNat (padLeftZeros m l) = digitsToNat l := by
  unfold padLeftZeros
  rw [digitsToNat_append, digitsToNat_replicate_zero]
  ring

theorem length_padLeftZeros {m : Nat} {l : List Char} (h : l.length ≤ m) :
    (padLeftZeros m l).length = m := by
  unfold padLeftZeros
  simp
  omega

theorem mem_padLeftZeros {m : Nat} {l : List Char} {c : Char}
    (h : c ∈ padLeftZeros m l) : c = '0' ∨ c ∈ l := by
  unfold padLeftZeros at h
  rcases List.mem_append.mp h with h | h
  · exact Or.inl (List.eq_of_mem_replicate h)
  · exact Or.inr h

/-- The exact rational value of the stripped, padded fractional digits of
`fp < 10¹²`. -/
theorem fracValue {fp : Nat} (h : fp < 10 ^ 12) :
    (digitsToNat (dropTrailingZeros (padLeftZeros 12 (natToDigits fp))) : ℚ)
        / 10 ^ (dropTrailingZeros (padLeftZeros 12 (natToDigits fp))).length
      = (fp : ℚ) / 10 ^ 12 := by
  set pad := padLeftZeros 12 (natToDigits fp) with hpad
  set t := (pad.reverse.takeWhile (fun c => c = '0')).length with ht
  have hval : digitsToNat pad = fp := by
    rw [hpad, digitsToNat_padLeftZeros, digitsToNat_natToDigits]
  have hlen : pad.length = 12 :=
    length_padLeftZeros (length_natToDigits_le h (by omega))
  have hv2 : fp = digitsToNat (dropTrailingZeros pad) * 10 ^ t := by
    rw [← hval]
    exact digitsToNat_eq_dropTrailingZeros pad
  have hl2 : 12 = (dropTrailingZeros pad).length + t := by
    rw [← hlen]
    exact length_eq_dropTrailingZeros pad
  rw [show ((fp : ℚ)) = (digitsToNat (dropTrailingZeros pad) : ℚ) * 10 ^ t by
        exact_mod_cast congrArg (Nat.cast (R := ℚ)) hv2,
      show ((10 : ℚ) ^ 12)
          = 10 ^ (dropTrailingZeros pad).length * 10 ^ t by
        rw [← pow_add]
        congr 1,
      mul_div_mul_right _ _ (pow_ne_zero t (by norm_num))]

/-! ### Lexing a rendered numeral -/

theorem takeWhile_all {p : Char → Bool} {l : List Char}
    (h : ∀ c ∈ l, p c = true) : l.takeWhile p = l := by
  induction l with
  | nil => rfl
  | cons c t ih =>
      simp [List.takeWhile_cons, h c (by simp),
        ih fun d hd => h d (by simp [hd])]

theorem dropWhile_all {p : Char → Bool} {l : List Char}
    (h : ∀ c ∈ l, p c = true) : l.dropWhile p = [] := by
  induction l with
  | nil => rfl
  | cons c t ih =>
      rw [List.dropWhile_cons]
      simp only [h c (by simp), if_true]
      exact ih fun d hd => h d (by simp [hd])

theorem spanPred_all {p : Char → Bool} {l : List Char}
    (h : ∀ c ∈ l, p c = true) : spanPred p l = (l, []) := by
  induction l with
  | nil => rfl
  | cons c t ih =>
      simp only [spanPred, h c (by simp), if_true,
        ih fun d hd => h d (by simp [hd])]

theorem digit_facts : ∀ c ∈ digitChars,
    isJsWhitespace c = false ∧ isNumChar c = true ∧
    (decide (c ≠ '.')) = true ∧ c.isAlpha = false := by decide

theorem plain_facts : ∀ c ∈ plainChars,
    isJsWhitespace c = false ∧ glyphMap c = some c ∧
    allowedChar c = true ∧ lowerChar c = c ∧ c.isAlpha = false := by decide

theorem numToken_all_digits {l : List Char} (h : ∀ c ∈ l, c ∈ digitChars) :
    numToken l = some ((digitsToNat l : ℚ)) := by
  unfold numToken
  have hnd : ∀ c ∈ l, (fun c => decide (c ≠ '.')) c = true :=
    fun c hc => (digit_facts c (h c hc)).2.2.1
  rw [takeWhile_all hnd, dropWhile_all hnd]

theorem takeWhile_append_dot (a f : List Char)
    (ha : ∀ c ∈ a, (decide (c ≠ '.')) = true) :
    List.takeWhile (fun c => decide (c ≠ '.')) (a ++ '.' :: f) = a := by
  induction a with
  | nil => simp [List.takeWhile_cons]
  | cons c t ih =>
      rw [List.cons_append, List.takeWhile_cons, ha c (by simp), if_pos rfl,
        ih fun d hd => ha d (by simp [hd])]

theorem dropWhile_append_dot (a f : List Char)
    (ha : ∀ c ∈ a, (decide (c ≠ '.')) = true) :
    List.dropWhile (fun c => decide (c ≠ '.')) (a ++ '.' :: f) = '.' :: f := by
  induction a with
  | nil => simp [List.dropWhile_cons]
  | cons c t ih =>
      rw [List.cons_append, List.dropWhile_cons]
      simp only [ha c (by simp), if_true]
      exact ih fun d hd => ha d (by simp [hd])

theorem numToken_with_dot {a f : List Char}
    (ha : ∀ c ∈ a, c ∈ digitChars) (hf : ∀ c ∈ f, c ∈ digitChars)
    (hane : a ≠ []) :
    numToken (a ++ '.' :: f)
      = some ((digitsToNat a : ℚ) + (digitsToNat f : ℚ) / 10 ^ f.length) := by
  unfold numToken
  have ha' : ∀ c ∈ a, (decide (c ≠ '.')) = true :=
    fun c hc => (digit_facts c (ha c hc)).2.2.1
  rw [takeWhile_append_dot a f ha', dropWhile_append_dot a f ha']
  have hfall : f.all (fun c => decide (c ≠ '.')) = true :=
    List.all_eq_true.mpr fun c hc => (digit_facts c (hf c hc)).2.2.1
  have hae : a.isEmpty = false := by
    cases a with
    | nil => exact absurd rfl hane
    | cons x t => rfl
  have hdot : '.' ∉ f := fun hc => by
    simpa using (digit_facts _ (hf _ hc)).2.2.1
  simp [hfall, hae, hdot]

theorem tokenize_numeral {d : Char} {rest : List Char} {q : ℚ}
    (hd : d ∈ digitChars) (hrest : ∀ c ∈ rest, isNumChar c = true)
    (hq : numToken (d :: rest) = some q) :
    tokenize (d :: rest) = some [Tok.num q] := by
  unfold tokenize
  show tokenizeF (rest.length + 1 + 1) (d :: rest) = _
  have h1 := (digit_facts d hd).1
  have h2 := (digit_facts d hd).2.1
  simp only [tokenizeF, h1, h2, Bool.false_eq_true, if_false, if_true,
    spanPred_all hrest, hq]

theorem tokenize_neg_numeral {d : Char} {rest : List Char} {q : ℚ}
    (hd : d ∈ digitChars) (hrest : ∀ c ∈ rest, isNumChar c = true)
    (hq : numToken (d :: rest) = some q) :
    tokenize ('-' :: d :: rest) = some [Tok.minus, Tok.num q] := by
  unfold tokenize
  show tokenizeF (rest.length + 1 + 1 + 1) ('-' :: d :: rest) = _
  have hinner : tokenizeF (rest.length + 1 + 1) (d :: rest)
      = some [Tok.num q] := by
    have h := tokenize_numeral hd hrest hq
    unfold tokenize at h
    exact h
  have hstep : tokenizeF (rest.length + 1 + 1 + 1) ('-' :: d :: rest)
      = (tokenizeF (rest.length + 1 + 1) (d :: rest)).map
          fun ts => Tok.minus :: ts := rfl
  rw [hstep, hinner]
  rfl

/-! ### Parsing a single (possibly negated) numeral token -/

theorem parseAddL_single (q : ℚ) :
    parseAddL 14 [Tok.num q] = some (JsNum.fin q, []) := rfl

theorem parseAddL_minus (q : ℚ) :
    parseAddL 20 [Tok.minus, Tok.num q] = some (JsNum.fin (-q), []) := rfl

/-! ### The engine re-evaluates a rendered result to its exact value -/

theorem numToken_render_body (n : Nat) :
    numToken (natToDigits (n / 10 ^ 12)
        ++ (if n % 10 ^ 12 = 0 then []
            else '.' :: dropTrailingZeros
                (padLeftZeros 12 (natToDigits (n % 10 ^ 12)))))
      = some ((n : ℚ) / 10 ^ 12) := by
  by_cases hfp : n % 10 ^ 12 = 0
  · rw [if_pos hfp, List.append_nil, numToken_all_digits mem_natToDigits,
      digitsToNat_natToDigits]
    congr 1
    rw [eq_div_iff (show ((10 : ℚ) ^ 12) ≠ 0 by norm_num)]
    exact_mod_cast congrArg (Nat.cast (R := ℚ))
      (Nat.div_mul_cancel (Nat.dvd_of_mod_eq_zero hfp))
  · rw [if_neg hfp]
    have hfd : ∀ c ∈ dropTrailingZeros
        (padLeftZeros 12 (natToDigits (n % 10 ^ 12))), c ∈ digitChars := by
      intro c hc
      rcases mem_padLeftZeros (mem_dropTrailingZeros hc) with h0 | hmem
      · subst h0; decide
      · exact mem_natToDigits c hmem
    rw [numToken_with_dot mem_natToDigits hfd (natToDigits_ne_nil _)]
    congr 1
    rw [digitsToNat_natToDigits,
      fracValue (Nat.mod_lt n (by norm_num)),
      eq_div_iff (show ((10 : ℚ) ^ 12) ≠ 0 by norm_num), add_mul,
      div_mul_cancel₀ _ (show ((10 : ℚ) ^ 12) ≠ 0 by norm_num)]
    have harith : (n / 10 ^ 12) * 10 ^ 12 + n % 10 ^ 12 = n := by omega
    exact_mod_cast congrArg (Nat.cast (R := ℚ)) harith

theorem render_body_shape (n : Nat) :
    ∃ d t, natToDigits (n / 10 ^ 12) = d :: t ∧ d ∈ digitChars ∧
      ∀ c ∈ t ++ (if n % 10 ^ 12 = 0 then []
          else '.' :: dropTrailingZeros
              (padLeftZeros 12 (natToDigits (n % 10 ^ 12)))),
        isNumChar c = true := by
  rcases hnd : natToDigits (n / 10 ^ 12) with _ | ⟨d, t⟩
  · exact absurd hnd (natToDigits_ne_nil _)
  · refine ⟨d, t, rfl, ?_, ?_⟩
    · exact mem_natToDigits d (hnd ▸ List.mem_cons_self d t)
    · intro c hc
      rcases List.mem_append.mp hc with hc | hc
      · exact (digit_facts c
          (mem_natToDigits c (hnd ▸ List.mem_cons_of_mem d hc))).2.1
      · split at hc
        · simp at hc
        · rcases List.mem_cons.mp hc with hc | hc
          · subst hc; decide
          · rcases mem_padLeftZeros (mem_dropTrailingZeros hc) with h0 | hmem
            · subst h0; decide
            · exact (digit_facts c (mem_natToDigits c hmem)).2.1

theorem tokenize_render_pos (n : Nat) :
    tokenize (natToDigits (n / 10 ^ 12)
        ++ (if n % 10 ^ 12 = 0 then []
            else '.' :: dropTrailingZeros
                (padLeftZeros 12 (natToDigits (n % 10 ^ 12)))))
      = some [Tok.num ((n : ℚ) / 10 ^ 12)] := by
  obtain ⟨d, t, hdt, hd, hrest⟩ := render_body_shape n
  rw [hdt, List.cons_append]
  exact tokenize_numeral hd hrest
    (by rw [← List.cons_append, ← hdt]; exact numToken_render_body n)

theorem tokenize_render_neg (n : Nat) :
    tokenize ('-' :: (natToDigits (n / 10 ^ 12)
        ++ (if n % 10 ^ 12 = 0 then []
            else '.' :: dropTrailingZeros
                (padLeftZeros 12 (natToDigits (n % 10 ^ 12))))))
      = some [Tok.minus, Tok.num ((n : ℚ) / 10 ^ 12)] := by
  obtain ⟨d, t, hdt, hd, hrest⟩ := render_body_shape n
  rw [hdt, List.cons_append]
  exact tokenize_neg_numeral hd hrest
    (by rw [← List.cons_append, ← hdt]; exact numToken_render_body n)

theorem engineEval_renderRounded (k : ℤ) :
    engineEval (renderRounded k)
      = some (.num (.fin ((k : ℚ) / 10 ^ 12))) := by
  rcases lt_or_ge k 0 with hk | hk
  · have hr : renderRounded k
        = '-' :: (natToDigits (k.natAbs / 10 ^ 12)
            ++ (if k.natAbs % 10 ^ 12 = 0 then []
                else '.' :: dropTrailingZeros
                    (padLeftZeros 12 (natToDigits (k.natAbs % 10 ^ 12))))) := by
      unfold renderRounded
      rw [if_pos hk]
      simp
    have hval : -((k.natAbs : ℚ) / 10 ^ 12) = (k : ℚ) / 10 ^ 12 := by
      rw [← neg_div]
      congr 1
      rw [Int.cast_natAbs, abs_of_neg hk]
      push_cast
      ring
    calc engineEval (renderRounded k)
        = some (.num (.fin (-((k.natAbs : ℚ) / 10 ^ 12)))) := by
          rw [hr]
          unfold engineEval
          rw [tokenize_render_neg k.natAbs]
          rfl
      _ = some (.num (.fin ((k : ℚ) / 10 ^ 12))) := by rw [hval]
  · have hr : renderRounded k
        = natToDigits (k.natAbs / 10 ^ 12)
            ++ (if k.natAbs % 10 ^ 12 = 0 then []
                else '.' :: dropTrailingZeros
                    (padLeftZeros 12 (natToDigits (k.natAbs % 10 ^ 12)))) := by
      unfold renderRounded
      rw [if_neg (by omega)]
      simp
    have hval : ((k.natAbs : ℚ) / 10 ^ 12) = (k : ℚ) / 10 ^ 12 := by
      congr 1
      rw [Int.cast_natAbs, abs_of_nonneg hk]
    calc engineEval (renderRounded k)
        = some (.num (.fin ((k.natAbs : ℚ) / 10 ^ 12))) := by
          rw [hr]
          unfold engineEval
          rw [tokenize_render_pos k.natAbs]
          rfl
      _ = some (.num (.fin ((k : ℚ) / 10 ^ 12))) := by rw [hval]

/-- Re-rounding a value that is already an integer multiple of 10⁻¹² is the
identity: the added `Number.EPSILON` contributes less than half an ulp of
the scaled value. -/
theorem round12_fixed (k : ℤ) : round12 ((k : ℚ) / 10 ^ 12) = k := by
  unfold round12 jsRound epsQ
  have harg : ((k : ℚ) / 10 ^ 12 + 1 / 2 ^ 52) * 10 ^ 12 + 1 / 2
      = (k : ℚ) + (10 ^ 12 / 2 ^ 52 + 1 / 2) := by
    field_simp
    ring
  rw [harg, Int.floor_int_add]
  have hz : ⌊(10 ^ 12 / 2 ^ 52 + 1 / 2 : ℚ)⌋ = 0 := by
    apply Int.floor_eq_zero_iff.mpr
    rw [Set.mem_Ico]
    constructor <;> norm_num
  rw [hz, add_zero]

theorem mem_renderRounded {k : ℤ} {c : Char} (h : c ∈ renderRounded k) :
    c ∈ plainChars := by
  unfold renderRounded at h
  simp only [List.mem_append] at h
  have hsign : c ∈ (if k < 0 then ['-'] else []) → c ∈ plainChars := by
    intro hc
    split at hc
    · simp at hc
      subst hc
      decide
    · simp at hc
  have hint : c ∈ natToDigits (k.natAbs / 10 ^ 12) → c ∈ plainChars := by
    intro hc
    exact List.mem_append_left _ (mem_natToDigits c hc)
  have hfrac : c ∈ (if k.natAbs % 10 ^ 12 = 0 then []
      else '.' :: dropTrailingZeros
          (padLeftZeros 12 (natToDigits (k.natAbs % 10 ^ 12)))) →
      c ∈ plainChars := by
    intro hc
    split at hc
    · simp at hc
    · rcases List.mem_cons.mp hc with hc | hc
      · subst hc
        decide
      · rcases mem_padLeftZeros (mem_dropTrailingZeros hc) with h0 | hm
        · subst h0
          decide
        · exact List.mem_append_left _ (mem_natToDigits c hm)
  rcases h with (h | h) | h
  · exact hsign h
  · exact hint h
  · exact hfrac h

theorem renderRounded_guards (k : ℤ) :
    normalize (renderRounded k) = renderRounded k ∧
    containsBlocked (renderRounded k) = false ∧
    (renderRounded k).all allowedChar = true := by
  have hmem : ∀ c ∈ renderRounded k,
      isJsWhitespace c = false ∧ glyphMap c = some c ∧
      allowedChar c = true ∧ lowerChar c = c ∧ c.isAlpha = false :=
    fun c hc => plain_facts c (mem_renderRounded hc)
  refine ⟨normalize_eq_self (fun c hc => (hmem c hc).1)
      (fun c hc => (hmem c hc).2.1), ?_,
    List.all_eq_true.mpr fun c hc => (hmem c hc).2.2.1⟩
  apply containsBlocked_eq_false_of_no_alpha
  intro c hc
  rcases List.mem_map.mp hc with ⟨d, hd, rfl⟩
  rw [(hmem d hd).2.2.2.1]
  exact (hmem d hd).2.2.2.2

theorem safeEvalL_renderRounded (k : ℤ) :
    safeEvalL (renderRounded k) = .ok (renderRounded k) := by
  obtain ⟨hn, hb, ha⟩ := renderRounded_guards k
  unfold safeEvalL
  simp only [hn, hb, ha, engineEval_renderRounded k, round12_fixed,
    Bool.not_true, Bool.false_eq_true, if_false]

theorem renderRounded_noTrailingZero (k : ℤ) :
    noTrailingZeroFrac (renderRounded k) := by
  unfold noTrailingZeroFrac
  intro hdot
  by_cases hfp : k.natAbs % 10 ^ 12 = 0
  · exfalso
    simp only [renderRounded] at hdot
    rw [if_pos hfp, List.append_nil] at hdot
    rcases List.mem_append.mp hdot with h | h
    · split at h <;> simp at h
    · have := mem_natToDigits _ h
      simp [digitChars] at this
  · have hdtz : dropTrailingZeros
        (padLeftZeros 12 (natToDigits (k.natAbs % 10 ^ 12))) ≠ [] := by
      apply dropTrailingZeros_ne_nil
      rw [digitsToNat_padLeftZeros, digitsToNat_natToDigits]
      exact hfp
    simp only [renderRounded]
    rw [if_neg hfp]
    rw [List.getLast?_append_of_ne_nil _ (by simp),
      show ('.' :: dropTrailingZeros
          (padLeftZeros 12 (natToDigits (k.natAbs % 10 ^ 12))))
        = ['.'] ++ dropTrailingZeros
            (padLeftZeros 12 (natToDigits (k.natAbs % 10 ^ 12))) from rfl,
      List.getLast?_append_of_ne_nil _ hdtz]
    exact getLast?_dropTrailingZeros _

/-- C6: when both guards pass and the engine produces a finite number `q`,
`safeEval` returns `q` rounded to 12 decimal places by the
add-epsilon/multiply/round/divide scheme, rendered as a decimal string
with no trailing zeros in the fractional part; in particular
`safeEval "pi"` is `Ok "3.14159265359"`. -/
theorem claim6_rounding :
    (∀ (s : String) (q : ℚ),
        containsBlocked (normalize s.data) = false →
        (normalize s.data).all allowedChar = true →
        engineEval (normalize s.data) = some (.num (.fin q)) →
        safeEval s = .ok (String.mk (renderRounded (round12 q)))) ∧
    (∀ k : ℤ, noTrailingZeroFrac (renderRounded k)) ∧
    safeEval "pi" = .ok "3.14159265359" := by
  refine ⟨?_, renderRounded_noTrailingZero, by with_unfolding_all rfl⟩
  intro s q h1 h2 h3
  unfold safeEval safeEvalL
  simp [h1, h2, h3]

theorem claim6_witness :
    containsBlocked (normalize "pi".data) = false ∧
    (normalize "pi".data).all allowedChar = true ∧
    engineEval (normalize "pi".data) = some (.num (.fin piConst)) ∧
    safeEval "pi" = .ok (String.mk (renderRounded (round12 piConst))) :=
  ⟨by decide, by decide, by with_unfolding_all rfl,
   claim6_rounding.1 "pi" piConst (by decide) (by decide)
     (by with_unfolding_all rfl)⟩

/-- C7 (amended): idempotence holds for every numeric success: if the
engine produced a finite number for `s` and `safeEval s = Ok r`, then
`safeEval r = Ok r`.  (Unrestricted idempotence fails: the non-numeric
success on empty input is not re-evaluable, see the counterexample.) -/
theorem claim7_idempotent (s : String) (q : ℚ) (r : String)
    (hnum : engineEval (normalize s.data) = some (.num (.fin q)))
    (hok : safeEval s = .ok r) :
    safeEval r = .ok r := by
  unfold safeEval at hok
  cases hse : safeEvalL s.data with
  | error e =>
      rw [hse] at hok
      exact absurd hok (by simp)
  | ok l =>
      rw [hse] at hok
      have hr : r = String.mk l := (Except.ok.inj hok).symm
      simp only [safeEvalL] at hse
      rw [hnum] at hse
      by_cases hb : containsBlocked (normalize s.data) = true
      · rw [if_pos hb] at hse
        exact absurd hse (by simp)
      · rw [if_neg hb] at hse
        by_cases hal : (!(normalize s.data).all allowedChar) = true
        · rw [if_pos hal] at hse
          exact absurd hse (by simp)
        · rw [if_neg hal] at hse
          have hse' : renderRounded (round12 q) = l := Except.ok.inj hse
          subst hr
          rw [← hse']
          unfold safeEval
          rw [show (String.mk (renderRounded (round12 q))).data
              = renderRounded (round12 q) from rfl, safeEvalL_renderRounded]

/-- C7 counterexample: `safeEval ""` succeeds with the string
`"undefined"`, but evaluating `"undefined"` is rejected
(`InvalidCharacters`), so idempotence fails as stated for the
non-numeric success path. -/
theorem claim7_counterexample :
    safeEval "" = .ok "undefined" ∧
    safeEval "undefined" ≠ .ok "undefined" := by
  refine ⟨by decide, by decide⟩

theorem claim7_witness :
    engineEval (normalize "2+2".data) = some (.num (.fin (2 + 2))) ∧
    safeEval "2+2" = .ok "4" ∧ safeEval "4" = .ok "4" :=
  ⟨by with_unfolding_all rfl, by with_unfolding_all rfl,
   claim7_idempotent "2+2" (2 + 2) "4" (by with_unfolding_all rfl)
     (by with_unfolding_all rfl)⟩

end Bika
